import Mathlib

/-!
# Verification of `python-aws-cognito` (weehong)

A shallow embedding of the administrative Cognito utility:

* `src/cognito_user/config.py` — `get_excluded_users`;
* `src/cognito_user/create_users.py` — `create_test_users`, `main`;
* `src/cognito_user/delete_users.py` — `delete_all_users`, `main`;
* `src/cognito_user/tui.py` — `fetch_user_pool_groups`, `get_user_groups`,
  `add_user_to_group`, `remove_user_from_group`, `UsersScreen.delete_all_users`,
  `UsersScreen.toggle_selection`, `UsersScreen.action_delete_selected`.

The AWS Cognito service and the boto3 client are modelled as oracles: the
sequence of pages `list_users` / `list_groups` would serve and, for each
fallible provider call, whether it succeeds or raises a `ClientError`.
Stateful loops become structural recursions over those page lists, and the
provider calls a function makes are recorded in an explicit event trace so
that claims of the form "never calls delete on this user" can be stated.
Machine strings stay `String`; Python truthiness of an optional string
(`if not x:` with `x` either `None` or a `str`) is made explicit.
-/

set_option autoImplicit false

namespace Cognito

/-- Python truthiness of an optional string: `None` and `""` are falsy,
every other string is truthy.  This is the test the source performs with
`if not user_pool_id`, `if not pagination_token`, `if args.email:` etc. -/
def strOptTruthy : Option String → Bool
  | none => false
  | some s => s ≠ ""

/-! ## `create_users.py` — bulk creation

`create_test_users(user_pool_id, num_users, password)` loops
`for i in range(1, num_users + 1)`, synthesizes
`email = f"testuser{i}@example.com"`, calls `admin_create_user` followed by
`admin_set_user_password` inside a `try`, increments `created_count` on
success, and on `ClientError` (any code; `UsernameExistsException` only
changes the log line) increments `failed_count`.  It returns
`(created_count, failed_count)`.

The provider is an oracle mapping the loop index `i` to the outcome of the
creation attempt for that user (the pair of calls inside the `try`). -/

/-- The username synthesized for loop index `i`: `f"testuser{i}@example.com"`. -/
def testEmail (i : Nat) : String :=
  "testuser" ++ toString i ++ "@example.com"

/-- Outcome of one creation attempt (the `admin_create_user` +
`admin_set_user_password` pair): success, or a `ClientError` carrying the
provider error code. -/
inductive CreateOutcome where
  | ok
  | err (code : String)
deriving DecidableEq

/-- One iteration of the `create_test_users` loop body at index `i`.
The accumulator is `(usernames attempted so far, created_count, failed_count)`;
the attempt on `testEmail i` is recorded, and exactly one of the two
counters is incremented according to the provider outcome. -/
def createStep (provider : Nat → CreateOutcome)
    (acc : List String × Nat × Nat) (i : Nat) : List String × Nat × Nat :=
  match provider i with
  | .ok => (acc.1 ++ [testEmail i], acc.2.1 + 1, acc.2.2)
  | .err _ => (acc.1 ++ [testEmail i], acc.2.1, acc.2.2 + 1)

/-- `create_test_users` from `create_users.py`: the loop
`for i in range(1, num_users + 1)` folded over the loop body.  Returns the
list of usernames on which a creation was attempted (in order) together
with `(created_count, failed_count)`. -/
def create_test_users (numUsers : Nat) (provider : Nat → CreateOutcome) :
    List String × Nat × Nat :=
  (List.range' 1 numUsers).foldl (createStep provider) ([], 0, 0)

/-! ## `tui.py` — group membership helpers

`add_user_to_group` / `remove_user_from_group` wrap a single provider call
in `try/except ClientError`; on success they return `(True, "")`, on error
`(False, e.response.get("Error", {}).get("Message", str(e)))`. -/

/-- The payload of a raised `botocore` `ClientError`, as far as the handler
reads it: `e.response["Error"]["Message"]` when the response carries one
(`none` models both a missing `"Error"` key and a missing `"Message"` key),
and `str(e)`, the exception's string form. -/
structure ClientErrorInfo where
  errMessage : Option String
  strForm : String
deriving DecidableEq

/-- Outcome of a single provider call: success or a raised `ClientError`. -/
inductive ProviderResult where
  | ok
  | clientErr (e : ClientErrorInfo)
deriving DecidableEq

/-- `e.response.get("Error", {}).get("Message", str(e))`: the provider's
error message when the response carries one (even an empty one), the
exception's string form otherwise. -/
def errorMsgOf (e : ClientErrorInfo) : String :=
  e.errMessage.getD e.strForm

/-- `add_user_to_group` from `tui.py`: calls `admin_add_user_to_group` and
returns `(success, error_message)`. -/
def add_user_to_group (r : ProviderResult) : Bool × String :=
  match r with
  | .ok => (true, "")
  | .clientErr e => (false, errorMsgOf e)

/-- `remove_user_from_group` from `tui.py`: calls
`admin_remove_user_from_group` and returns `(success, error_message)`. -/
def remove_user_from_group (r : ProviderResult) : Bool × String :=
  match r with
  | .ok => (true, "")
  | .clientErr e => (false, errorMsgOf e)

/-! ## `config.py` — exclusion list -/

/-- ASCII whitespace as stripped by Python's `str.strip()`
(space, tab, newline, carriage return, vertical tab, form feed). -/
def pyIsSpace (c : Char) : Bool :=
  c = ' ' || c = '\t' || c = '\n' || c = '\r' || c = '\x0b' || c = '\x0c'

/-- Python `u.strip()`: drop leading and trailing whitespace. -/
def pyStrip (s : String) : String :=
  String.mk (((s.data.dropWhile pyIsSpace).reverse.dropWhile pyIsSpace).reverse)

/-- Worker for `splitComma`: `acc` holds the current field, reversed. -/
def splitCommaAux : List Char → List Char → List String
  | [], acc => [String.mk acc.reverse]
  | c :: rest, acc =>
    if c = ',' then String.mk acc.reverse :: splitCommaAux rest []
    else splitCommaAux rest (c :: acc)

/-- Python `s.split(",")`: cut at every comma, keeping empty fields. -/
def splitComma (s : String) : List String :=
  splitCommaAux s.data []

/-- `get_excluded_users` from `config.py`.  The argument is
`os.environ.get("EXCLUDE_USERS", "")` (so `none` models an unset variable);
an unset or empty value yields `[]`, otherwise the list comprehension
`[u.strip() for u in excluded.split(",") if u.strip()]`. -/
def get_excluded_users (env : Option String) : List String :=
  let excluded := env.getD ""
  if excluded = "" then []
  else (splitComma excluded).filterMap fun u =>
    let v := pyStrip u
    if v = "" then none else some v

/-! ## `delete_users.py` / `tui.py` — delete-all

`delete_all_users(user_pool_id, excluded_usernames)` (CLI) and
`UsersScreen.delete_all_users` (TUI) run, inside one `try/except
ClientError`, the loop: call `list_users` (passing the pagination token when
truthy), walk the returned users, skip a user matching the exclusion set
(CLI: by username only; TUI: by username or by the user's first `email`
attribute), otherwise call `admin_delete_user`, then continue to the next
page while the returned `PaginationToken` is truthy.

The service is an oracle: `pages` is the sequence of pages successive
`list_users` calls would return, `listOk k` tells whether the `k`-th
`list_users` call succeeds, and `delOk u` whether deleting username `u`
succeeds.  A raised `ClientError` ends the run (the surrounding handler
catches it); the CLI function still returns `(deleted_count, skipped_count)`.
Every provider call made is recorded as an event. -/

/-- A Cognito user as returned by `list_users`: the `Username` field and
the `Attributes` list of `(Name, Value)` pairs. -/
structure CUser where
  username : String
  attributes : List (String × String)
deriving DecidableEq

/-- The email the TUI extracts from a listed user: the value of the first
attribute named `"email"`, or `""` when there is none (`tui.py`'s
`for attr in user.get("Attributes", []): ... break` loop). -/
def userEmail (u : CUser) : String :=
  match u.attributes.find? (fun a => a.1 = "email") with
  | some a => a.2
  | none => ""

/-- One `list_users` response page: the `Users` list and the optional
`PaginationToken` (`response.get("PaginationToken")`). -/
structure UserPage where
  users : List CUser
  token : Option String
deriving DecidableEq

/-- A provider call made during a delete-all run, with its outcome:
a `list_users` call, or an `admin_delete_user` call on a username.
`skipUser` marks a listed user that matched the exclusion set (no provider
call is made for it; it is recorded so that the skip counter can be related
to the trace). -/
inductive DEvent where
  | listUsers (ok : Bool)
  | skipUser (username : String)
  | deleteUser (username : String) (ok : Bool)
deriving DecidableEq

/-- Whether the event's provider call succeeded (skips trivially did). -/
def evOk : DEvent → Bool
  | .listUsers ok => ok
  | .skipUser _ => true
  | .deleteUser _ ok => ok

/-- Is the event a `list_users` call? -/
def isListEv : DEvent → Bool
  | .listUsers _ => true
  | _ => false

/-- Is the event a skipped (excluded) user? -/
def isSkipEv : DEvent → Bool
  | .skipUser _ => true
  | _ => false

/-- Is the event a successful `admin_delete_user` call? -/
def isOkDeleteEv : DEvent → Bool
  | .deleteUser _ true => true
  | _ => false

/-- The exclusion test of the CLI `delete_all_users`
(`delete_users.py`): `if username in excluded_set` — by username only. -/
def cliExcluded (excluded : List String) (u : CUser) : Bool :=
  excluded.contains u.username

/-- The exclusion test of the TUI `UsersScreen.delete_all_users`
(`tui.py`): `if username in excluded or email in excluded`. -/
def tuiExcluded (excluded : List String) (u : CUser) : Bool :=
  excluded.contains u.username || excluded.contains (userEmail u)

/-- Result of a delete-all run: the events in order, the two counters, and
whether the run was ended by a raised `ClientError`. -/
structure RunResult where
  events : List DEvent
  deleted : Nat
  skipped : Nat
  aborted : Bool
deriving DecidableEq

/-- The inner `for user in response["Users"]` loop shared by both delete-all
functions, parametrized by the exclusion test: skip an excluded user
(counting it), otherwise call `admin_delete_user`; a failing delete raises,
ending the whole run. -/
def runUsers (isExcl : CUser → Bool) (delOk : String → Bool) :
    List CUser → RunResult
  | [] => ⟨[], 0, 0, false⟩
  | u :: rest =>
    if isExcl u then
      let r := runUsers isExcl delOk rest
      ⟨.skipUser u.username :: r.events, r.deleted, r.skipped + 1, r.aborted⟩
    else if delOk u.username then
      let r := runUsers isExcl delOk rest
      ⟨.deleteUser u.username true :: r.events, r.deleted + 1, r.skipped, r.aborted⟩
    else
      ⟨[.deleteUser u.username false], 0, 0, true⟩

/-- The outer `while True` pagination loop shared by both delete-all
functions: the `k`-th `list_users` call serves the next page (or raises,
ending the run), its users are processed, and the loop continues exactly
while the page's `PaginationToken` is truthy.  An abort inside the page
ends the run. -/
def runPages (isExcl : CUser → Bool) (delOk : String → Bool)
    (listOk : Nat → Bool) : List UserPage → Nat → RunResult
  | [], _ => ⟨[], 0, 0, false⟩
  | p :: rest, k =>
    if listOk k then
      let r := runUsers isExcl delOk p.users
      if r.aborted then
        ⟨.listUsers true :: r.events, r.deleted, r.skipped, true⟩
      else if strOptTruthy p.token then
        let r2 := runPages isExcl delOk listOk rest (k + 1)
        ⟨.listUsers true :: (r.events ++ r2.events), r.deleted + r2.deleted,
          r.skipped + r2.skipped, r2.aborted⟩
      else
        ⟨.listUsers true :: r.events, r.deleted, r.skipped, false⟩
    else
      ⟨[.listUsers false], 0, 0, true⟩

/-- All users the paginated listing returns, in listing order. -/
def listedUsers (pages : List UserPage) : List CUser :=
  pages.foldr (fun p acc => p.users ++ acc) []

/-- The pages a non-aborted run actually requests: the loop stops after the
first page whose `PaginationToken` is falsy, so later pages of the oracle
are never served. -/
def servedPages : List UserPage → List UserPage
  | [] => []
  | p :: rest => if strOptTruthy p.token then p :: servedPages rest else [p]

/-- The full run of the CLI `delete_all_users` (`delete_users.py`). -/
def delete_all_users_run (excluded : List String) (pages : List UserPage)
    (delOk : String → Bool) (listOk : Nat → Bool) : RunResult :=
  runPages (cliExcluded excluded) delOk listOk pages 0

/-- The CLI `delete_all_users` return value `(deleted_count, skipped_count)`
(`return deleted_count, skipped_count` runs after the `except` handler,
so also when the run was aborted by a `ClientError`). -/
def delete_all_users (excluded : List String) (pages : List UserPage)
    (delOk : String → Bool) (listOk : Nat → Bool) : Nat × Nat :=
  let r := delete_all_users_run excluded pages delOk listOk
  (r.deleted, r.skipped)

/-- The full run of the TUI `UsersScreen.delete_all_users` (`tui.py`),
whose exclusion test also matches the user's email attribute. -/
def tui_delete_all_users_run (excluded : List String) (pages : List UserPage)
    (delOk : String → Bool) (listOk : Nat → Bool) : RunResult :=
  runPages (tuiExcluded excluded) delOk listOk pages 0

/-! ## `tui.py` — group listing pagination -/

/-- One `list_groups` / `admin_list_groups_for_user` response page: the
group names under `Groups` and the optional `NextToken`. -/
structure GroupPage where
  groups : List String
  token : Option String
deriving DecidableEq

/-- The `while True` loop of `fetch_user_pool_groups`: collect
`(group_name, group_name)` pairs page by page, continuing exactly while the
page's `NextToken` is truthy.  Also returns the number of `list_groups`
calls made. -/
def fetchGroupsLoop : List GroupPage → List (String × String) × Nat
  | [] => ([], 0)
  | p :: rest =>
    let here := p.groups.map (fun g => (g, g))
    if strOptTruthy p.token then
      let r := fetchGroupsLoop rest
      (here ++ r.1, r.2 + 1)
    else (here, 1)

/-- The `while True` loop of `get_user_groups`: collect group names page by
page, continuing exactly while the page's `NextToken` is truthy.  Also
returns the number of `admin_list_groups_for_user` calls made. -/
def userGroupsLoop : List GroupPage → List String × Nat
  | [] => ([], 0)
  | p :: rest =>
    if strOptTruthy p.token then
      let r := userGroupsLoop rest
      (p.groups ++ r.1, r.2 + 1)
    else (p.groups, 1)

/-- Stable insertion by group name, modelling Python's
`sorted(groups, key=lambda x: x[0])`. -/
def insertByName (x : String × String) : List (String × String) → List (String × String)
  | [] => [x]
  | y :: ys => if x.1 < y.1 then x :: y :: ys else y :: insertByName x ys

/-- `sorted(groups, key=lambda x: x[0])`. -/
def sortByName (l : List (String × String)) : List (String × String) :=
  l.foldr insertByName []

/-- `fetch_user_pool_groups` from `tui.py`: empty pool id returns `[]`,
any `ClientError` inside the `try` (modelled by `err`) returns `[]`,
otherwise the paginated collection, sorted by group name. -/
def fetch_user_pool_groups (poolId : String) (pages : List GroupPage)
    (err : Bool) : List (String × String) :=
  if poolId = "" then []
  else if err then []
  else sortByName (fetchGroupsLoop pages).1

/-- `get_user_groups` from `tui.py`: empty pool id or username returns
`[]`, any `ClientError` returns `[]`, otherwise the paginated collection. -/
def get_user_groups (poolId username : String) (pages : List GroupPage)
    (err : Bool) : List String :=
  if poolId = "" || username = "" then []
  else if err then []
  else (userGroupsLoop pages).1

/-! ## CLI entry points -/

/-- Exit behaviour of a CLI `main`: a `return code` (the script's exit
status), or `parser.error` (argparse prints usage and exits with status 2). -/
inductive ExitResult where
  | exitCode (code : Nat)
  | argError
deriving DecidableEq

/-- `main` from `create_users.py`.  `poolId` is `get_user_pool_id()`
(falsy when the `AWS_COGNITO_USER_POOL_ID` environment variable is missing
or empty), `emailArg` / `numUsersArg` are the parsed `--email` /
`num_users` arguments, `singleSuccess` is the outcome of
`create_single_user`, and `provider` drives the bulk run.  Python's
`range(1, n + 1)` is empty for `n <= 0`, hence `n.toNat`. -/
def create_main (poolId : Option String) (emailArg : Option String)
    (numUsersArg : Option Int) (singleSuccess : Bool)
    (provider : Nat → CreateOutcome) : ExitResult :=
  if ¬ strOptTruthy poolId then .exitCode 1
  else if strOptTruthy emailArg then
    if singleSuccess then .exitCode 0 else .exitCode 1
  else
    match numUsersArg with
    | none => .argError
    | some n =>
        let _ := create_test_users n.toNat provider
        .exitCode 0

/-- `main` from `delete_users.py`: exit 1 when the pool id is falsy,
otherwise run `delete_all_users` on the environment exclusions plus the
`--exclude` arguments and exit 0 (whatever the run did). -/
def delete_main (poolId : Option String) (envExclude : Option String)
    (excludeArg : List String) (pages : List UserPage)
    (delOk : String → Bool) (listOk : Nat → Bool) : ExitResult :=
  if ¬ strOptTruthy poolId then .exitCode 1
  else
    let excluded := get_excluded_users envExclude ++ excludeArg
    let _ := delete_all_users excluded pages delOk listOk
    .exitCode 0

/-! ## `tui.py` — users screen selection state

`UsersScreen` keeps a `DataTable` whose first column is the select marker
(`"[E]"` for a user the exclusion set protects, else `"[ ]"`/`"[X]"`) and an
in-memory `selected_users: set[str]`, empty after every (re)load. -/

/-- One row of the users table: the columns `toggle_selection` reads
(`row_data[0]` is the select marker, `row_data[1]` the username). -/
structure TableRow where
  select : String
  username : String
  email : String
deriving DecidableEq

/-- The selection state of `UsersScreen`: the table rows and
`selected_users` (a Python set, represented as a duplicate-free list). -/
structure UsersScreenState where
  rows : List TableRow
  selected_users : List String
deriving DecidableEq

/-- `UsersScreen.toggle_selection` on the row with index `i`: an excluded
row (`current_select == "[E]"`) is left untouched; otherwise the username is
removed from `selected_users` (marker `"[ ]"`) if present, added (marker
`"[X]"`) if not, and the select cell is updated. -/
def toggle_selection (st : UsersScreenState) (i : Nat) : UsersScreenState :=
  match st.rows[i]? with
  | none => st
  | some row =>
    if row.select = "[E]" then st
    else if st.selected_users.contains row.username then
      { rows := st.rows.set i { row with select := "[ ]" },
        selected_users := st.selected_users.erase row.username }
    else
      { rows := st.rows.set i { row with select := "[X]" },
        selected_users := row.username :: st.selected_users }

/-- The `admin_delete_user` calls the `for username in
list(self.selected_users)` loop of `action_delete_selected` makes: one per
selected username, stopping after the first failing call (it raises into
the surrounding `except`). -/
def deleteCallsList (delOk : String → Bool) : List String → List String
  | [] => []
  | u :: rest => if delOk u then u :: deleteCallsList delOk rest else [u]

/-- `UsersScreen.action_delete_selected`: nothing is deleted when no user
is selected or the pool id is falsy; otherwise the usernames on which
`admin_delete_user` is called, in order. -/
def action_delete_selected (poolId : Option String) (delOk : String → Bool)
    (st : UsersScreenState) : List String :=
  if st.selected_users.isEmpty then []
  else if ¬ strOptTruthy poolId then []
  else deleteCallsList delOk st.selected_users

/-! ## Theorems -/

theorem strOptTruthy_none : strOptTruthy none = false := rfl

theorem createStep_attempts (provider : Nat → CreateOutcome)
    (acc : List String × Nat × Nat) (i : Nat) :
    (createStep provider acc i).1 = acc.1 ++ [testEmail i] := by
  cases h : provider i <;> simp [createStep, h]

theorem foldl_createStep_attempts (provider : Nat → CreateOutcome)
    (l : List Nat) (acc : List String × Nat × Nat) :
    ((l.foldl (createStep provider) acc).1) = acc.1 ++ l.map testEmail := by
  induction l generalizing acc with
  | nil => simp
  | cons i t ih =>
      simp only [List.foldl_cons, List.map_cons]
      rw [ih]
      rw [createStep_attempts]
      simp

theorem foldl_createStep_counts (provider : Nat → CreateOutcome)
    (l : List Nat) (acc : List String × Nat × Nat) :
    ((l.foldl (createStep provider) acc).2.1 + (l.foldl (createStep provider) acc).2.2)
      = acc.2.1 + acc.2.2 + l.length := by
  induction l generalizing acc with
  | nil => simp
  | cons i t ih =>
      simp only [List.foldl_cons, List.length_cons]
      rw [ih]
      cases h : provider i <;> simp [createStep, h] <;> omega

/-- C2: For every N >= 1 (proved for every N), bulk create with count N
performs exactly N creation attempts, one per user, with usernames exactly
`testuser1@example.com` through `testuserN@example.com` in increasing order
of i: the attempted-username list is the image of `[1, …, N]` in order, its
length is N, and its j-th entry (0-based) is `testuser(j+1)@example.com`. -/
theorem create_test_users_attempts (N : Nat) (provider : Nat → CreateOutcome) :
    (create_test_users N provider).1 = (List.range' 1 N).map testEmail ∧
    (create_test_users N provider).1.length = N ∧
    ∀ j : Nat, j < N → (create_test_users N provider).1.get? j = some (testEmail (1 + j)) := by
  have h := foldl_createStep_attempts provider (List.range' 1 N) ([], 0, 0)
  simp only [List.nil_append] at h
  refine ⟨h, ?_, ?_⟩
  · rw [create_test_users, h]
    simp
  · intro j hj
    rw [create_test_users, h]
    rw [List.get?_eq_getElem?, List.getElem?_map, List.getElem?_range' _ _ hj]
    simp

/-- Witness for C2 at a concrete input: two users, every attempt
succeeding; the second attempted username is `testuser2@example.com`. -/
theorem create_test_users_attempts_witness :
    (create_test_users 2 (fun _ => CreateOutcome.ok)).1
        = (List.range' 1 2).map testEmail ∧
    (create_test_users 2 (fun _ => CreateOutcome.ok)).1.length = 2 ∧
    (create_test_users 2 (fun _ => CreateOutcome.ok)).1.get? 1
        = some (testEmail (1 + 1)) := by
  have h := create_test_users_attempts 2 (fun _ => CreateOutcome.ok)
  exact ⟨h.1, h.2.1, h.2.2 1 (by decide)⟩

/-- C3: for every N and every pattern of per-user provider outcomes, each
failure is caught and counted and processing continues, so
`create_test_users` returns counts with created_count + failed_count = N. -/
theorem create_test_users_counts (N : Nat) (provider : Nat → CreateOutcome) :
    (create_test_users N provider).2.1 + (create_test_users N provider).2.2 = N := by
  have h := foldl_createStep_counts provider (List.range' 1 N) ([], 0, 0)
  simpa [create_test_users] using h

/-- C7: a creation attempt whose provider outcome is
`UsernameExistsException` (the user already exists) increments the failed
count and never the created count: the loop body maps the accumulator
`(attempts, created, failed)` to `(attempts ++ [email], created, failed + 1)`. -/
theorem createStep_username_exists (provider : Nat → CreateOutcome)
    (acc : List String × Nat × Nat) (i : Nat)
    (h : provider i = .err "UsernameExistsException") :
    createStep provider acc i = (acc.1 ++ [testEmail i], acc.2.1, acc.2.2 + 1) := by
  simp [createStep, h]

/-- Witness for C7 at a concrete input: a provider that reports every
username as existing, at index 1 with zeroed counters. -/
theorem createStep_username_exists_witness :
    createStep (fun _ => CreateOutcome.err "UsernameExistsException") ([], 0, 0) 1
      = (([] : List String) ++ [testEmail 1], 0, 0 + 1) :=
  createStep_username_exists (fun _ => CreateOutcome.err "UsernameExistsException")
    ([], 0, 0) 1 rfl

/-- C5, counterexample: the claim "on every provider error the result is
success = false with a NON-EMPTY message" is false as stated.  A
`ClientError` whose response carries an empty `Error.Message` makes
`add_user_to_group` return `(False, "")`: the handler takes the present
(empty) message and never falls back to `str(e)`. -/
theorem add_user_to_group_empty_message :
    add_user_to_group (ProviderResult.clientErr
      ⟨some "", "An error occurred (AccessDeniedException) when calling the AdminAddUserToGroup operation"⟩)
      = (false, "") := rfl

/-- C5, amended: on provider success both group calls return `(true, "")`;
on any provider error both return success = false with message
`e.response["Error"]["Message"]` when present, else `str(e)` — a message
that is non-empty unless the provider supplies an empty `Message` (or no
`Message` together with an empty exception string, which `botocore` never
produces). -/
theorem group_calls_success_flag (r : ProviderResult) :
    (r = ProviderResult.ok →
      add_user_to_group r = (true, "") ∧ remove_user_from_group r = (true, "")) ∧
    (∀ e : ClientErrorInfo, r = ProviderResult.clientErr e →
      (add_user_to_group r).1 = false ∧ (remove_user_from_group r).1 = false ∧
      (add_user_to_group r).2 = errorMsgOf e ∧
      (remove_user_from_group r).2 = errorMsgOf e ∧
      (e.errMessage ≠ some "" → e.strForm ≠ "" → errorMsgOf e ≠ "")) := by
  constructor
  · rintro rfl
    exact ⟨rfl, rfl⟩
  · rintro e rfl
    refine ⟨rfl, rfl, rfl, rfl, ?_⟩
    intro h1 h2
    cases hm : e.errMessage with
    | none => simpa [errorMsgOf, hm] using h2
    | some m =>
        have hm' : m ≠ "" := by
          intro hcon
          exact h1 (by rw [hm, hcon])
        simpa [errorMsgOf, hm] using hm'

/-- Witness for C5 at concrete inputs: a success, and an error carrying no
`Error.Message` whose `str(e)` is `"boom"`. -/
theorem group_calls_success_flag_witness :
    (add_user_to_group ProviderResult.ok = (true, "") ∧
      remove_user_from_group ProviderResult.ok = (true, "")) ∧
    ((add_user_to_group (ProviderResult.clientErr ⟨none, "boom"⟩)).1 = false ∧
      (remove_user_from_group (ProviderResult.clientErr ⟨none, "boom"⟩)).1 = false ∧
      errorMsgOf ⟨none, "boom"⟩ ≠ "") := by
  refine ⟨(group_calls_success_flag ProviderResult.ok).1 rfl, ?_⟩
  have h := (group_calls_success_flag (ProviderResult.clientErr ⟨none, "boom"⟩)).2
    ⟨none, "boom"⟩ rfl
  exact ⟨h.1, h.2.1, h.2.2.2.2 (by decide) (by decide)⟩

theorem filterMap_strip_eq (l : List String) :
    (l.filterMap fun u => let v := pyStrip u; if v = "" then none else some v)
      = (l.map pyStrip).filter (fun v => v ≠ "") := by
  induction l with
  | nil => rfl
  | cons a t ih =>
      simp only [List.filterMap_cons, List.map_cons, List.filter_cons]
      by_cases h : pyStrip a = "" <;> simp [h, ih]

/-- C9: `get_excluded_users` returns `[]` when `EXCLUDE_USERS` is unset or
empty; otherwise it splits the value on commas, strips surrounding
whitespace from each entry, and drops entries that are empty after
stripping, preserving the order of the remaining entries (the result is the
order-preserving `filter` of the stripped fields). -/
theorem get_excluded_users_spec :
    get_excluded_users none = [] ∧ get_excluded_users (some "") = [] ∧
    ∀ s : String, s ≠ "" →
      get_excluded_users (some s)
        = ((splitComma s).map pyStrip).filter (fun v => v ≠ "") := by
  refine ⟨rfl, rfl, ?_⟩
  intro s hs
  simp [get_excluded_users, hs, filterMap_strip_eq]

/-- Witness for C9 at a concrete input: `" a , ,b"` splits into four
fields, two of which survive stripping. -/
theorem get_excluded_users_spec_witness :
    get_excluded_users (some " a , ,b")
      = ((splitComma " a , ,b").map pyStrip).filter (fun v => v ≠ "") :=
  get_excluded_users_spec.2.2 " a , ,b" (by decide)

theorem listedUsers_nil : listedUsers [] = [] := rfl

theorem listedUsers_cons (p : UserPage) (rest : List UserPage) :
    listedUsers (p :: rest) = p.users ++ listedUsers rest := rfl

/-- No `admin_delete_user` call is ever made on a username all of whose
occurrences in a page satisfy the exclusion test. -/
theorem runUsers_no_delete (isExcl : CUser → Bool) (delOk : String → Bool)
    (name : String) (ok : Bool) :
    ∀ us : List CUser, (∀ u ∈ us, u.username = name → isExcl u = true) →
      DEvent.deleteUser name ok ∉ (runUsers isExcl delOk us).events := by
  intro us
  induction us with
  | nil => intro _ hmem; simp [runUsers] at hmem
  | cons u rest ih =>
      intro h hmem
      have hrest : ∀ v ∈ rest, v.username = name → isExcl v = true :=
        fun v hv => h v (List.mem_cons_of_mem _ hv)
      by_cases he : isExcl u
      · simp only [runUsers, he, if_pos] at hmem
        rcases List.mem_cons.mp hmem with h1 | h1
        · exact DEvent.noConfusion h1
        · exact ih hrest h1
      · have hu : u.username ≠ name := by
          intro heq
          exact he (h u (List.mem_cons_self _ _) heq)
        by_cases hd : delOk u.username
        · simp only [runUsers, he, hd, if_pos, if_neg, Bool.false_eq_true,
            not_false_eq_true] at hmem
          rcases List.mem_cons.mp hmem with h1 | h1
          · exact hu (DEvent.deleteUser.inj h1).1.symm
          · exact ih hrest h1
        · simp only [runUsers, he, hd, if_neg, Bool.false_eq_true,
            not_false_eq_true] at hmem
          rcases List.mem_cons.mp hmem with h1 | h1
          · exact hu (DEvent.deleteUser.inj h1).1.symm
          · simp at h1

/-- Pages version of `runUsers_no_delete`. -/
theorem runPages_no_delete (isExcl : CUser → Bool) (delOk : String → Bool)
    (listOk : Nat → Bool) (name : String) (ok : Bool) :
    ∀ (pages : List UserPage) (k : Nat),
      (∀ u ∈ listedUsers pages, u.username = name → isExcl u = true) →
      DEvent.deleteUser name ok ∉ (runPages isExcl delOk listOk pages k).events := by
  intro pages
  induction pages with
  | nil => intro k _ hmem; simp [runPages] at hmem
  | cons p rest ih =>
      intro k h hmem
      have hp : ∀ u ∈ p.users, u.username = name → isExcl u = true := by
        intro u hu
        exact h u (by rw [listedUsers_cons]; exact List.mem_append_left _ hu)
      have hrest : ∀ u ∈ listedUsers rest, u.username = name → isExcl u = true := by
        intro u hu
        exact h u (by rw [listedUsers_cons]; exact List.mem_append_right _ hu)
      by_cases hl : listOk k
      · simp only [runPages, hl, if_pos] at hmem
        by_cases ha : (runUsers isExcl delOk p.users).aborted
        · simp only [ha, if_pos] at hmem
          rcases List.mem_cons.mp hmem with h1 | h1
          · exact DEvent.noConfusion h1
          · exact runUsers_no_delete isExcl delOk name ok p.users hp h1
        · by_cases ht : strOptTruthy p.token
          · simp only [ha, ht, if_pos, if_neg, Bool.false_eq_true,
              not_false_eq_true] at hmem
            rcases List.mem_cons.mp hmem with h1 | h1
            · exact DEvent.noConfusion h1
            · rcases List.mem_append.mp h1 with h2 | h2
              · exact runUsers_no_delete isExcl delOk name ok p.users hp h2
              · exact ih (k + 1) hrest h2
          · simp only [ha, ht, if_neg, Bool.false_eq_true, not_false_eq_true] at hmem
            rcases List.mem_cons.mp hmem with h1 | h1
            · exact DEvent.noConfusion h1
            · exact runUsers_no_delete isExcl delOk name ok p.users hp h1
      · simp only [runPages, hl, if_neg, Bool.false_eq_true, not_false_eq_true] at hmem
        rcases List.mem_cons.mp hmem with h1 | h1
        · exact DEvent.noConfusion h1
        · simp at h1

/-- The two counters of the inner loop count exactly the successful delete
events and the skip events of its trace. -/
theorem runUsers_counts (isExcl : CUser → Bool) (delOk : String → Bool) :
    ∀ us : List CUser,
      (runUsers isExcl delOk us).deleted
          = (runUsers isExcl delOk us).events.countP isOkDeleteEv ∧
      (runUsers isExcl delOk us).skipped
          = (runUsers isExcl delOk us).events.countP isSkipEv := by
  intro us
  induction us with
  | nil => simp [runUsers]
  | cons u rest ih =>
      by_cases he : isExcl u
      · simp [runUsers, he, List.countP_cons, ih.1, ih.2, isOkDeleteEv, isSkipEv]
      · by_cases hd : delOk u.username
        · simp [runUsers, he, hd, List.countP_cons, ih.1, ih.2, isOkDeleteEv, isSkipEv]
        · simp [runUsers, he, hd, List.countP_cons, isOkDeleteEv, isSkipEv]

/-- Pages version of `runUsers_counts`. -/
theorem runPages_counts (isExcl : CUser → Bool) (delOk : String → Bool)
    (listOk : Nat → Bool) :
    ∀ (pages : List UserPage) (k : Nat),
      (runPages isExcl delOk listOk pages k).deleted
          = (runPages isExcl delOk listOk pages k).events.countP isOkDeleteEv ∧
      (runPages isExcl delOk listOk pages k).skipped
          = (runPages isExcl delOk listOk pages k).events.countP isSkipEv := by
  intro pages
  induction pages with
  | nil => intro k; simp [runPages]
  | cons p rest ih =>
      intro k
      by_cases hl : listOk k
      · have hu := runUsers_counts isExcl delOk p.users
        by_cases ha : (runUsers isExcl delOk p.users).aborted
        · simp [runPages, hl, ha, List.countP_cons, hu.1, hu.2, isOkDeleteEv, isSkipEv]
        · by_cases ht : strOptTruthy p.token
          · have h2 := ih (k + 1)
            simp [runPages, hl, ha, ht, List.countP_cons, List.countP_append,
              hu.1, hu.2, h2.1, h2.2, isOkDeleteEv, isSkipEv]
          · simp [runPages, hl, ha, ht, List.countP_cons, hu.1, hu.2,
              isOkDeleteEv, isSkipEv]
      · simp [runPages, hl, List.countP_cons, isOkDeleteEv, isSkipEv]

/-- Trace shape of the inner loop: a non-aborted run has only successful
events; an aborted run is a successful prefix followed by exactly one
failed provider call, which is its last event. -/
theorem runUsers_trace_shape (isExcl : CUser → Bool) (delOk : String → Bool) :
    ∀ us : List CUser,
      ((runUsers isExcl delOk us).aborted = false →
        ∀ x ∈ (runUsers isExcl delOk us).events, evOk x = true) ∧
      ((runUsers isExcl delOk us).aborted = true →
        ∃ pre e, (runUsers isExcl delOk us).events = pre ++ [e] ∧
          evOk e = false ∧ ∀ x ∈ pre, evOk x = true) := by
  intro us
  induction us with
  | nil => simp [runUsers]
  | cons u rest ih =>
      by_cases he : isExcl u
      · simp only [runUsers, he, if_pos]
        constructor
        · intro hna x hx
          rcases List.mem_cons.mp hx with h1 | h1
          · subst h1; rfl
          · exact ih.1 hna x h1
        · intro hab
          obtain ⟨pre, e, hsplit, hbad, hok⟩ := ih.2 hab
          refine ⟨.skipUser u.username :: pre, e, by simp [hsplit], hbad, ?_⟩
          intro x hx
          rcases List.mem_cons.mp hx with h1 | h1
          · subst h1; rfl
          · exact hok x h1
      · by_cases hd : delOk u.username
        · simp only [runUsers, he, hd, if_pos, if_neg, Bool.false_eq_true,
            not_false_eq_true]
          constructor
          · intro hna x hx
            rcases List.mem_cons.mp hx with h1 | h1
            · subst h1; simp [evOk]
            · exact ih.1 hna x h1
          · intro hab
            obtain ⟨pre, e, hsplit, hbad, hok⟩ := ih.2 hab
            refine ⟨.deleteUser u.username true :: pre, e, by simp [hsplit], hbad, ?_⟩
            intro x hx
            rcases List.mem_cons.mp hx with h1 | h1
            · subst h1; rfl
            · exact hok x h1
        · simp only [runUsers, he, hd, if_neg, Bool.false_eq_true,
            not_false_eq_true]
          constructor
          · intro hna; exact absurd hna (by simp)
          · intro _
            exact ⟨[], .deleteUser u.username false, rfl,
              by simp [evOk], by simp⟩

/-- Pages version of `runUsers_trace_shape`. -/
theorem runPages_trace_shape (isExcl : CUser → Bool) (delOk : String → Bool)
    (listOk : Nat → Bool) :
    ∀ (pages : List UserPage) (k : Nat),
      ((runPages isExcl delOk listOk pages k).aborted = false →
        ∀ x ∈ (runPages isExcl delOk listOk pages k).events, evOk x = true) ∧
      ((runPages isExcl delOk listOk pages k).aborted = true →
        ∃ pre e, (runPages isExcl delOk listOk pages k).events = pre ++ [e] ∧
          evOk e = false ∧ ∀ x ∈ pre, evOk x = true) := by
  intro pages
  induction pages with
  | nil => intro k; simp [runPages]
  | cons p rest ih =>
      intro k
      by_cases hl : listOk k
      · by_cases ha : (runUsers isExcl delOk p.users).aborted
        · simp only [runPages, hl, ha, if_pos]
          constructor
          · intro hna; exact absurd hna (by simp)
          · intro _
            obtain ⟨pre, e, hsplit, hbad, hok⟩ :=
              (runUsers_trace_shape isExcl delOk p.users).2 ha
            refine ⟨.listUsers true :: pre, e, by simp [hsplit], hbad, ?_⟩
            intro x hx
            rcases List.mem_cons.mp hx with h1 | h1
            · subst h1; rfl
            · exact hok x h1
        · by_cases ht : strOptTruthy p.token
          · simp only [runPages, hl, ha, ht, if_pos, if_neg, Bool.false_eq_true,
              not_false_eq_true]
            have husers := (runUsers_trace_shape isExcl delOk p.users).1
              (by simpa using ha)
            constructor
            · intro hna x hx
              rcases List.mem_cons.mp hx with h1 | h1
              · subst h1; rfl
              · rcases List.mem_append.mp h1 with h2 | h2
                · exact husers x h2
                · exact (ih (k + 1)).1 hna x h2
            · intro hab
              obtain ⟨pre, e, hsplit, hbad, hok⟩ := (ih (k + 1)).2 hab
              refine ⟨.listUsers true ::
                ((runUsers isExcl delOk p.users).events ++ pre), e,
                by simp [hsplit], hbad, ?_⟩
              intro x hx
              rcases List.mem_cons.mp hx with h1 | h1
              · subst h1; rfl
              · rcases List.mem_append.mp h1 with h2 | h2
                · exact husers x h2
                · exact hok x h2
          · simp only [runPages, hl, ha, ht, if_neg, Bool.false_eq_true,
              not_false_eq_true]
            have husers := (runUsers_trace_shape isExcl delOk p.users).1
              (by simpa using ha)
            constructor
            · intro _ x hx
              rcases List.mem_cons.mp hx with h1 | h1
              · subst h1; rfl
              · exact husers x h1
            · intro hab; exact absurd hab (by simp)
      · simp only [runPages, hl, if_neg, Bool.false_eq_true, not_false_eq_true]
        constructor
        · intro hna; exact absurd hna (by simp)
        · intro _
          exact ⟨[], .listUsers false, rfl, rfl, by simp⟩

/-- In a non-aborted inner run, every excluded user occurrence is recorded
as skipped. -/
theorem runUsers_skip_mem (isExcl : CUser → Bool) (delOk : String → Bool) :
    ∀ us : List CUser, (runUsers isExcl delOk us).aborted = false →
      ∀ u ∈ us, isExcl u = true →
        DEvent.skipUser u.username ∈ (runUsers isExcl delOk us).events := by
  intro us
  induction us with
  | nil => intro _ u hu; simp at hu
  | cons v rest ih =>
      intro hna u hu hexcl
      by_cases he : isExcl v
      · simp only [runUsers, he, if_pos] at hna ⊢
        rcases List.mem_cons.mp hu with h1 | h1
        · subst h1; exact List.mem_cons_self _ _
        · exact List.mem_cons_of_mem _ (ih hna u h1 hexcl)
      · by_cases hd : delOk v.username
        · simp only [runUsers, he, hd, if_pos, if_neg, Bool.false_eq_true,
            not_false_eq_true] at hna ⊢
          rcases List.mem_cons.mp hu with h1 | h1
          · subst h1; exact absurd hexcl (by simpa using he)
          · exact List.mem_cons_of_mem _ (ih hna u h1 hexcl)
        · simp only [runUsers, he, hd, if_neg, Bool.false_eq_true,
            not_false_eq_true] at hna
          exact absurd hna (by simp)

/-- In a non-aborted run, every excluded user occurrence on a served page
is recorded as skipped. -/
theorem runPages_skip_mem (isExcl : CUser → Bool) (delOk : String → Bool)
    (listOk : Nat → Bool) :
    ∀ (pages : List UserPage) (k : Nat),
      (runPages isExcl delOk listOk pages k).aborted = false →
      ∀ u ∈ listedUsers (servedPages pages), isExcl u = true →
        DEvent.skipUser u.username ∈ (runPages isExcl delOk listOk pages k).events := by
  intro pages
  induction pages with
  | nil => intro k _ u hu; simp [servedPages, listedUsers] at hu
  | cons p rest ih =>
      intro k hna u hu hexcl
      by_cases hl : listOk k
      · by_cases ha : (runUsers isExcl delOk p.users).aborted
        · simp only [runPages, hl, ha, if_pos] at hna
          exact absurd hna (by simp)
        · by_cases ht : strOptTruthy p.token
          · simp only [runPages, hl, ha, ht, if_pos, if_neg, Bool.false_eq_true,
              not_false_eq_true] at hna ⊢
            rw [servedPages, if_pos ht, listedUsers_cons] at hu
            rcases List.mem_append.mp hu with h1 | h1
            · exact List.mem_cons_of_mem _ (List.mem_append_left _
                (runUsers_skip_mem isExcl delOk p.users (by simpa using ha) u h1 hexcl))
            · exact List.mem_cons_of_mem _ (List.mem_append_right _
                (ih (k + 1) hna u h1 hexcl))
          · simp only [runPages, hl, ha, ht, if_neg, Bool.false_eq_true,
              not_false_eq_true] at hna ⊢
            rw [servedPages, if_neg ht, listedUsers_cons, listedUsers_nil,
              List.append_nil] at hu
            exact List.mem_cons_of_mem _
              (runUsers_skip_mem isExcl delOk p.users (by simpa using ha) u hu hexcl)
      · simp only [runPages, hl, if_neg, Bool.false_eq_true,
          not_false_eq_true] at hna
        exact absurd hna (by simp)

/-- The inner loop makes no `list_users` call. -/
theorem runUsers_no_listEv (isExcl : CUser → Bool) (delOk : String → Bool) :
    ∀ us : List CUser, (runUsers isExcl delOk us).events.countP isListEv = 0 := by
  intro us
  induction us with
  | nil => simp [runUsers]
  | cons u rest ih =>
      by_cases he : isExcl u
      · simp [runUsers, he, List.countP_cons, ih, isListEv]
      · by_cases hd : delOk u.username
        · simp [runUsers, he, hd, List.countP_cons, ih, isListEv]
        · simp [runUsers, he, hd, List.countP_cons, isListEv]

/-- With every delete succeeding, the inner loop never aborts. -/
theorem runUsers_not_aborted (isExcl : CUser → Bool) :
    ∀ us : List CUser, (runUsers isExcl (fun _ => true) us).aborted = false := by
  intro us
  induction us with
  | nil => rfl
  | cons u rest ih =>
      by_cases he : isExcl u
      · simpa [runUsers, he] using ih
      · simpa [runUsers, he] using ih

/-- With every provider call succeeding, the pagination loop stops exactly
after the first page whose token is falsy: if the pages before index `i`
all carry truthy tokens and page `i` carries a falsy one, exactly `i + 1`
`list_users` calls are made. -/
theorem runPages_listCalls (isExcl : CUser → Bool) :
    ∀ (pages : List UserPage) (i k : Nat) (p : UserPage),
      (∀ j q, j < i → pages.get? j = some q → strOptTruthy q.token = true) →
      pages.get? i = some p → strOptTruthy p.token = false →
      (runPages isExcl (fun _ => true) (fun _ => true) pages k).events.countP isListEv
        = i + 1 := by
  intro pages
  induction pages with
  | nil => intro i k p _ hp _; simp at hp
  | cons q rest ih =>
      intro i k p hbefore hp hfalsy
      have hna := runUsers_not_aborted isExcl q.users
      cases i with
      | zero =>
          have hq : q = p := by simpa using hp
          subst hq
          simp only [runPages, if_pos, hna, Bool.false_eq_true, not_false_eq_true,
            if_neg, hfalsy, List.countP_cons]
          simp [runUsers_no_listEv, isListEv]
      | succ j =>
          have htr : strOptTruthy q.token = true :=
            hbefore 0 q (Nat.succ_pos j) rfl
          have hrest : ∀ j' q', j' < j → rest.get? j' = some q' →
              strOptTruthy q'.token = true := by
            intro j' q' hj' hq'
            exact hbefore (j' + 1) q' (Nat.succ_lt_succ hj') (by simpa using hq')
          have hp' : rest.get? j = some p := by simpa using hp
          simp only [runPages, if_pos, hna, Bool.false_eq_true, not_false_eq_true,
            if_neg, htr, List.countP_cons, List.countP_append]
          rw [ih j (k + 1) p hrest hp' hfalsy]
          simp [runUsers_no_listEv, isListEv]

/-- The `fetch_user_pool_groups` loop stops exactly after the first page
whose `NextToken` is falsy. -/
theorem fetchGroupsLoop_calls :
    ∀ (pages : List GroupPage) (i : Nat) (p : GroupPage),
      (∀ j q, j < i → pages.get? j = some q → strOptTruthy q.token = true) →
      pages.get? i = some p → strOptTruthy p.token = false →
      (fetchGroupsLoop pages).2 = i + 1 := by
  intro pages
  induction pages with
  | nil => intro i p _ hp _; simp at hp
  | cons q rest ih =>
      intro i p hbefore hp hfalsy
      cases i with
      | zero =>
          have hq : q = p := by simpa using hp
          subst hq
          simp [fetchGroupsLoop, hfalsy]
      | succ j =>
          have htr : strOptTruthy q.token = true :=
            hbefore 0 q (Nat.succ_pos j) rfl
          have hrest : ∀ j' q', j' < j → rest.get? j' = some q' →
              strOptTruthy q'.token = true := by
            intro j' q' hj' hq'
            exact hbefore (j' + 1) q' (Nat.succ_lt_succ hj') (by simpa using hq')
          have hp' : rest.get? j = some p := by simpa using hp
          simp only [fetchGroupsLoop, htr, if_pos]
          rw [ih j p hrest hp' hfalsy]

/-- The `get_user_groups` loop stops exactly after the first page whose
`NextToken` is falsy. -/
theorem userGroupsLoop_calls :
    ∀ (pages : List GroupPage) (i : Nat) (p : GroupPage),
      (∀ j q, j < i → pages.get? j = some q → strOptTruthy q.token = true) →
      pages.get? i = some p → strOptTruthy p.token = false →
      (userGroupsLoop pages).2 = i + 1 := by
  intro pages
  induction pages with
  | nil => intro i p _ hp _; simp at hp
  | cons q rest ih =>
      intro i p hbefore hp hfalsy
      cases i with
      | zero =>
          have hq : q = p := by simpa using hp
          subst hq
          simp [userGroupsLoop, hfalsy]
      | succ j =>
          have htr : strOptTruthy q.token = true :=
            hbefore 0 q (Nat.succ_pos j) rfl
          have hrest : ∀ j' q', j' < j → rest.get? j' = some q' →
              strOptTruthy q'.token = true := by
            intro j' q' hj' hq'
            exact hbefore (j' + 1) q' (Nat.succ_lt_succ hj') (by simpa using hq')
          have hp' : rest.get? j = some p := by simpa using hp
          simp only [userGroupsLoop, htr, if_pos]
          rw [ih j p hrest hp' hfalsy]

/-- C1, counterexample: the claim is false for the CLI `delete_all_users`
(`delete_users.py`), which tests `if username in excluded_set` only.  With
the exclusion set `{"a@x.com"}` and a single listed user whose username is
`"user-1"` and whose email attribute is `"a@x.com"`, the CLI run calls
`admin_delete_user` on that user and skips nobody. -/
theorem delete_all_users_deletes_email_excluded :
    delete_all_users ["a@x.com"] [⟨[⟨"user-1", [("email", "a@x.com")]⟩], none⟩]
        (fun _ => true) (fun _ => true) = (1, 0) ∧
    userEmail ⟨"user-1", [("email", "a@x.com")]⟩ = "a@x.com" ∧
    DEvent.deleteUser "user-1" true ∈
      (delete_all_users_run ["a@x.com"] [⟨[⟨"user-1", [("email", "a@x.com")]⟩], none⟩]
        (fun _ => true) (fun _ => true)).events := by
  refine ⟨rfl, rfl, ?_⟩
  simp [delete_all_users_run, runPages, runUsers, cliExcluded, strOptTruthy]

/-- C1, amended: the CLI `delete_all_users` filters by USERNAME ONLY — a
listed user whose username is in the exclusion set is never deleted (and,
in a non-aborted run, every served occurrence is skipped, with
skipped_count counting exactly the skips), but a user matched only by email
is not protected there.  The TUI `UsersScreen.delete_all_users` filters by
username or email: assuming the listing's usernames are distinct (Cognito
usernames are unique in a pool), a listed user either of whose identifiers
is in the exclusion set is never deleted by it. -/
theorem delete_all_exclusion (excluded : List String) (pages : List UserPage)
    (delOk : String → Bool) (listOk : Nat → Bool) (name : String) :
    (excluded.contains name = true →
      (∀ ok, DEvent.deleteUser name ok ∉
        (delete_all_users_run excluded pages delOk listOk).events) ∧
      ((delete_all_users_run excluded pages delOk listOk).aborted = false →
        ∀ u ∈ listedUsers (servedPages pages), u.username = name →
          DEvent.skipUser name ∈
            (delete_all_users_run excluded pages delOk listOk).events) ∧
      (delete_all_users excluded pages delOk listOk).2
        = (delete_all_users_run excluded pages delOk listOk).events.countP isSkipEv) ∧
    (((listedUsers pages).map CUser.username).Nodup →
      ∀ u ∈ listedUsers pages,
        (excluded.contains u.username = true ∨
          excluded.contains (userEmail u) = true) →
        ∀ ok, DEvent.deleteUser u.username ok ∉
          (tui_delete_all_users_run excluded pages delOk listOk).events) := by
  constructor
  · intro hname
    have hexcl : ∀ v ∈ listedUsers pages, v.username = name →
        cliExcluded excluded v = true := by
      intro v _ hv
      simpa [cliExcluded, hv] using hname
    refine ⟨?_, ?_, ?_⟩
    · intro ok
      exact runPages_no_delete (cliExcluded excluded) delOk listOk name ok pages 0 hexcl
    · intro hna u hu huname
      have hskip := runPages_skip_mem (cliExcluded excluded) delOk listOk pages 0 hna u hu
        (by simpa [cliExcluded, huname] using hname)
      rwa [huname] at hskip
    · exact (runPages_counts (cliExcluded excluded) delOk listOk pages 0).2
  · intro hnodup u hu hid ok
    have hexcl : ∀ v ∈ listedUsers pages, v.username = u.username →
        tuiExcluded excluded v = true := by
      intro v hv hvu
      have hvequ : v = u :=
        List.inj_on_of_nodup_map hnodup hv hu hvu
      subst hvequ
      simp only [tuiExcluded, Bool.or_eq_true]
      rcases hid with h | h
      · exact Or.inl h
      · exact Or.inr h
    exact runPages_no_delete (tuiExcluded excluded) delOk listOk u.username ok
      pages 0 hexcl

/-- Witness for C1 at concrete inputs: one page holding the excluded user
`"keep"` (email `"k@x.com"`) and the unprotected user `"u1"`; the CLI run
with exclusion set `{"keep"}` never deletes and does skip `"keep"`, and the
TUI run with exclusion set `{"k@x.com"}` never deletes `"keep"` either. -/
theorem delete_all_exclusion_witness :
    (DEvent.deleteUser "keep" true ∉
      (delete_all_users_run ["keep"]
        [⟨[⟨"keep", [("email", "k@x.com")]⟩, ⟨"u1", []⟩], none⟩]
        (fun _ => true) (fun _ => true)).events) ∧
    (DEvent.skipUser "keep" ∈
      (delete_all_users_run ["keep"]
        [⟨[⟨"keep", [("email", "k@x.com")]⟩, ⟨"u1", []⟩], none⟩]
        (fun _ => true) (fun _ => true)).events) ∧
    (delete_all_users ["keep"]
        [⟨[⟨"keep", [("email", "k@x.com")]⟩, ⟨"u1", []⟩], none⟩]
        (fun _ => true) (fun _ => true)).2
      = (delete_all_users_run ["keep"]
          [⟨[⟨"keep", [("email", "k@x.com")]⟩, ⟨"u1", []⟩], none⟩]
          (fun _ => true) (fun _ => true)).events.countP isSkipEv ∧
    (DEvent.deleteUser "keep" true ∉
      (tui_delete_all_users_run ["k@x.com"]
        [⟨[⟨"keep", [("email", "k@x.com")]⟩, ⟨"u1", []⟩], none⟩]
        (fun _ => true) (fun _ => true)).events) := by
  have hcli := (delete_all_exclusion ["keep"]
    [⟨[⟨"keep", [("email", "k@x.com")]⟩, ⟨"u1", []⟩], none⟩]
    (fun _ => true) (fun _ => true) "keep").1 (by decide)
  have htui := (delete_all_exclusion ["k@x.com"]
    [⟨[⟨"keep", [("email", "k@x.com")]⟩, ⟨"u1", []⟩], none⟩]
    (fun _ => true) (fun _ => true) "keep").2 (by decide)
    ⟨"keep", [("email", "k@x.com")]⟩ (by decide) (by decide) true
  exact ⟨hcli.1 true,
    hcli.2.1 (by decide) ⟨"keep", [("email", "k@x.com")]⟩ (by decide) rfl,
    hcli.2.2, htui⟩

/-- C6, counterexample: the loops terminate on Python FALSINESS of the
token, not only on its absence.  A first page carrying the (present but
empty) token `""` already ends the `fetch_user_pool_groups` loop: only one
`list_groups` call is made although the page where the token is absent is
the second one. -/
theorem fetchGroupsLoop_stops_on_empty_token :
    (fetchGroupsLoop [⟨["g1"], some ""⟩, ⟨["g2"], none⟩]).2 = 1 ∧
    (⟨["g1"], some ""⟩ : GroupPage).token ≠ none ∧
    ([⟨["g1"], some ""⟩, ⟨["g2"], none⟩] : List GroupPage).get? 1
      = some ⟨["g2"], none⟩ := by
  refine ⟨rfl, ?_, rfl⟩
  simp

/-- C6, amended: every pagination loop (the user listing shared by the CLI
and TUI delete-all, and the two group-listing helpers) terminates exactly
when a response page carries no continuation token OR an empty-string one
(Python falsiness), for every finite sequence of pages regardless of how
many pages precede that one: when every page before index `i` carries a
truthy token and page `i` carries a falsy one, exactly `i + 1` listing
calls are made. -/
theorem pagination_terminates (i : Nat) :
    (∀ (gpages : List GroupPage) (p : GroupPage),
      (∀ j q, j < i → gpages.get? j = some q → strOptTruthy q.token = true) →
      gpages.get? i = some p → strOptTruthy p.token = false →
      (fetchGroupsLoop gpages).2 = i + 1 ∧ (userGroupsLoop gpages).2 = i + 1) ∧
    (∀ (isExcl : CUser → Bool) (pages : List UserPage) (p : UserPage) (k : Nat),
      (∀ j q, j < i → pages.get? j = some q → strOptTruthy q.token = true) →
      pages.get? i = some p → strOptTruthy p.token = false →
      (runPages isExcl (fun _ => true) (fun _ => true) pages k).events.countP isListEv
        = i + 1) := by
  constructor
  · intro gpages p hbefore hp hfalsy
    exact ⟨fetchGroupsLoop_calls gpages i p hbefore hp hfalsy,
      userGroupsLoop_calls gpages i p hbefore hp hfalsy⟩
  · intro isExcl pages p k hbefore hp hfalsy
    exact runPages_listCalls isExcl pages i k p hbefore hp hfalsy

/-- Witness for C6 at concrete inputs: two-page sequences whose first page
carries the truthy token `"t"` and whose second carries none; both group
loops and the user-listing loop make exactly two listing calls. -/
theorem pagination_terminates_witness :
    (fetchGroupsLoop [⟨["g"], some "t"⟩, ⟨[], none⟩]).2 = 1 + 1 ∧
    (userGroupsLoop [⟨["g"], some "t"⟩, ⟨[], none⟩]).2 = 1 + 1 ∧
    (runPages (cliExcluded []) (fun _ => true) (fun _ => true)
        [⟨[], some "t"⟩, ⟨[], none⟩] 0).events.countP isListEv = 1 + 1 := by
  have hgb : ∀ j q, j < 1 →
      ([⟨["g"], some "t"⟩, ⟨[], none⟩] : List GroupPage).get? j = some q →
      strOptTruthy q.token = true := by
    intro j q hj hq
    have hj0 : j = 0 := by omega
    subst hj0
    have hq' : ({ groups := ["g"], token := some "t" } : GroupPage) = q := by
      simpa using hq
    subst hq'
    decide
  have hub : ∀ j q, j < 1 →
      ([⟨[], some "t"⟩, ⟨[], none⟩] : List UserPage).get? j = some q →
      strOptTruthy q.token = true := by
    intro j q hj hq
    have hj0 : j = 0 := by omega
    subst hj0
    have hq' : ({ users := [], token := some "t" } : UserPage) = q := by
      simpa using hq
    subst hq'
    decide
  have hg := (pagination_terminates 1).1 [⟨["g"], some "t"⟩, ⟨[], none⟩]
    ⟨[], none⟩ hgb rfl (by decide)
  have hu := (pagination_terminates 1).2 (cliExcluded [])
    [⟨[], some "t"⟩, ⟨[], none⟩] ⟨[], none⟩ 0 hub rfl (by decide)
  exact ⟨hg.1, hg.2, hu⟩

/-- C8: if any provider call inside the CLI `delete_all_users` raises a
`ClientError` mid-run, the scan aborts at that point — the failing call is
the run's last event and every earlier call succeeded — the error does not
propagate (the function still returns a pair of counts), and the returned
`(deleted_count, skipped_count)` are exactly the successful deletes and
skips accumulated before the error; a run with no failure has only
successful events. -/
theorem delete_all_users_abort (excluded : List String) (pages : List UserPage)
    (delOk : String → Bool) (listOk : Nat → Bool) :
    ((delete_all_users_run excluded pages delOk listOk).aborted = true →
      ∃ pre e, (delete_all_users_run excluded pages delOk listOk).events = pre ++ [e] ∧
        evOk e = false ∧ ∀ x ∈ pre, evOk x = true) ∧
    ((delete_all_users_run excluded pages delOk listOk).aborted = false →
      ∀ x ∈ (delete_all_users_run excluded pages delOk listOk).events, evOk x = true) ∧
    (delete_all_users excluded pages delOk listOk
      = ((delete_all_users_run excluded pages delOk listOk).events.countP isOkDeleteEv,
         (delete_all_users_run excluded pages delOk listOk).events.countP isSkipEv)) := by
  have hshape := runPages_trace_shape (cliExcluded excluded) delOk listOk pages 0
  have hcounts := runPages_counts (cliExcluded excluded) delOk listOk pages 0
  refine ⟨hshape.2, hshape.1, ?_⟩
  rw [delete_all_users]
  rw [Prod.mk.injEq]
  exact ⟨hcounts.1, hcounts.2⟩

/-- Witness for C8 at a concrete input: the delete of `"u2"` fails after
`"keep"` was skipped and `"u1"` deleted; the theorem applies with the run
aborted, and the returned counts are `(1, 1)`, read off the trace. -/
theorem delete_all_users_abort_witness :
    (∃ pre e, (delete_all_users_run ["keep"]
        [⟨[⟨"keep", []⟩, ⟨"u1", []⟩, ⟨"u2", []⟩], none⟩]
        (fun u => u == "u1") (fun _ => true)).events = pre ++ [e] ∧
      evOk e = false ∧ ∀ x ∈ pre, evOk x = true) ∧
    delete_all_users ["keep"] [⟨[⟨"keep", []⟩, ⟨"u1", []⟩, ⟨"u2", []⟩], none⟩]
        (fun u => u == "u1") (fun _ => true)
      = ((delete_all_users_run ["keep"]
            [⟨[⟨"keep", []⟩, ⟨"u1", []⟩, ⟨"u2", []⟩], none⟩]
            (fun u => u == "u1") (fun _ => true)).events.countP isOkDeleteEv,
         (delete_all_users_run ["keep"]
            [⟨[⟨"keep", []⟩, ⟨"u1", []⟩, ⟨"u2", []⟩], none⟩]
            (fun u => u == "u1") (fun _ => true)).events.countP isSkipEv) := by
  have h := delete_all_users_abort ["keep"]
    [⟨[⟨"keep", []⟩, ⟨"u1", []⟩, ⟨"u2", []⟩], none⟩]
    (fun u => u == "u1") (fun _ => true)
  exact ⟨h.1 (by decide), h.2.2⟩

/-- C4: the `create_users.py` and `delete_users.py` entry points exit with
code 0 on success or partial completion — bulk create for any provider
outcome pattern, a successful single create, and a delete run whatever it
deleted or where it stopped — and exit with code 1 when the user pool ID
environment variable is missing (or empty, which Python treats the same). -/
theorem cli_exit_codes (pool email : Option String) (nArg : Option Int)
    (ssucc : Bool) (provider : Nat → CreateOutcome) (envEx : Option String)
    (exArg : List String) (pages : List UserPage) (delOk : String → Bool)
    (listOk : Nat → Bool) :
    (strOptTruthy pool = false →
      create_main pool email nArg ssucc provider = .exitCode 1 ∧
      delete_main pool envEx exArg pages delOk listOk = .exitCode 1) ∧
    (strOptTruthy pool = true →
      (strOptTruthy email = true → ssucc = true →
        create_main pool email nArg ssucc provider = .exitCode 0) ∧
      (strOptTruthy email = false → ∀ n : Int, nArg = some n →
        create_main pool email nArg ssucc provider = .exitCode 0) ∧
      delete_main pool envEx exArg pages delOk listOk = .exitCode 0) := by
  constructor
  · intro h
    constructor
    · simp [create_main, h]
    · simp [delete_main, h]
  · intro h
    refine ⟨?_, ?_, ?_⟩
    · intro he hs
      simp [create_main, h, he, hs]
    · intro he n hn
      simp [create_main, h, he, hn]
    · simp [delete_main, h]

/-- Witness for C4 at concrete inputs: a missing pool id exits 1 in both
scripts; with a pool id set, a successful single create, a bulk create
whose every attempt fails, and a delete run all exit 0. -/
theorem cli_exit_codes_witness :
    create_main none none none true (fun _ => .ok) = ExitResult.exitCode 1 ∧
    delete_main none none [] [] (fun _ => true) (fun _ => true)
      = ExitResult.exitCode 1 ∧
    create_main (some "pool") (some "a@x.com") none true (fun _ => .ok)
      = ExitResult.exitCode 0 ∧
    create_main (some "pool") none (some 3) false (fun _ => .err "X")
      = ExitResult.exitCode 0 ∧
    delete_main (some "pool") none [] [] (fun _ => true) (fun _ => true)
      = ExitResult.exitCode 0 := by
  have h1 := (cli_exit_codes none none none true (fun _ => .ok) none [] []
    (fun _ => true) (fun _ => true)).1 (by decide)
  have h2 := (cli_exit_codes (some "pool") (some "a@x.com") none true
    (fun _ => .ok) none [] [] (fun _ => true) (fun _ => true)).2 (by decide)
  have h3 := (cli_exit_codes (some "pool") none (some 3) false
    (fun _ => .err "X") none [] [] (fun _ => true) (fun _ => true)).2 (by decide)
  exact ⟨h1.1, h1.2, h2.1 (by decide) rfl, h3.2.1 (by decide) 3 rfl, h3.2.2⟩

theorem map_username_set (sel : String) :
    ∀ (l : List TableRow) (i : Nat) (row : TableRow), l[i]? = some row →
      (l.set i { row with select := sel }).map TableRow.username
        = l.map TableRow.username := by
  intro l
  induction l with
  | nil => intro i row h; simp at h
  | cons a t ih =>
      intro i row h
      cases i with
      | zero =>
          have ha : a = row := by simpa using h
          subst ha
          simp [List.set]
      | succ j =>
          have h' : t[j]? = some row := by simpa using h
          simp [List.set, ih j row h']

/-- One `toggle_selection` event preserves the row usernames, hence their
distinctness, and preserves the invariant that no selected username belongs
to a row displayed as excluded. -/
theorem toggle_selection_invariant (st : UsersScreenState) (i : Nat)
    (hnd : (st.rows.map TableRow.username).Nodup)
    (hinv : ∀ u ∈ st.selected_users, ∀ r ∈ st.rows,
      r.select = "[E]" → r.username ≠ u) :
    ((toggle_selection st i).rows.map TableRow.username).Nodup ∧
    (∀ u ∈ (toggle_selection st i).selected_users,
      ∀ r ∈ (toggle_selection st i).rows, r.select = "[E]" → r.username ≠ u) := by
  cases hget : st.rows[i]? with
  | none => simpa [toggle_selection, hget] using ⟨hnd, hinv⟩
  | some row =>
      by_cases he : row.select = "[E]"
      · simpa [toggle_selection, hget, he] using ⟨hnd, hinv⟩
      · have hrowmem : row ∈ st.rows := List.getElem?_mem hget
        by_cases hc : st.selected_users.contains row.username
        · simp only [toggle_selection, hget, he, hc, if_pos, if_neg,
            not_false_eq_true]
          constructor
          · rw [map_username_set _ _ _ _ hget]
            exact hnd
          · intro u hu r hr hsel
            have hu' : u ∈ st.selected_users := List.mem_of_mem_erase hu
            rcases List.mem_or_eq_of_mem_set hr with h1 | h1
            · exact hinv u hu' r h1 hsel
            · subst h1
              simp at hsel
        · simp only [toggle_selection, hget, he, hc, if_neg, Bool.false_eq_true,
            not_false_eq_true]
          constructor
          · rw [map_username_set _ _ _ _ hget]
            exact hnd
          · intro u hu r hr hsel
            rcases List.mem_cons.mp hu with h1 | h1
            · subst h1
              rcases List.mem_or_eq_of_mem_set hr with h2 | h2
              · intro heq
                have : r = row := List.inj_on_of_nodup_map hnd h2 hrowmem heq
                subst this
                exact he hsel
              · subst h2
                simp at hsel
            · rcases List.mem_or_eq_of_mem_set hr with h2 | h2
              · exact hinv u h1 r h2 hsel
              · subst h2
                simp at hsel

theorem foldl_toggle_invariant (toggles : List Nat) :
    ∀ st : UsersScreenState,
      (st.rows.map TableRow.username).Nodup →
      (∀ u ∈ st.selected_users, ∀ r ∈ st.rows, r.select = "[E]" → r.username ≠ u) →
      ((toggles.foldl toggle_selection st).rows.map TableRow.username).Nodup ∧
      (∀ u ∈ (toggles.foldl toggle_selection st).selected_users,
        ∀ r ∈ (toggles.foldl toggle_selection st).rows,
          r.select = "[E]" → r.username ≠ u) := by
  induction toggles with
  | nil => intro st hnd hinv; exact ⟨hnd, hinv⟩
  | cons i t ih =>
      intro st hnd hinv
      have h := toggle_selection_invariant st i hnd hinv
      simpa using ih (toggle_selection st i) h.1 h.2

theorem deleteCallsList_subset (delOk : String → Bool) :
    ∀ (l : List String) (u : String), u ∈ deleteCallsList delOk l → u ∈ l := by
  intro l
  induction l with
  | nil => intro u hu; simp [deleteCallsList] at hu
  | cons v rest ih =>
      intro u hu
      by_cases hd : delOk v
      · simp only [deleteCallsList, hd, if_pos] at hu
        rcases List.mem_cons.mp hu with h1 | h1
        · subst h1; exact List.mem_cons_self _ _
        · exact List.mem_cons_of_mem _ (ih u h1)
      · simp only [deleteCallsList, hd, if_neg, Bool.false_eq_true,
          not_false_eq_true] at hu
        rcases List.mem_cons.mp hu with h1 | h1
        · subst h1; exact List.mem_cons_self _ _
        · simp at h1

/-- C10: starting from any freshly loaded table (rows with their select
markers, `selected_users` cleared) whose usernames are distinct, no
sequence of row-selection events ever puts the username of a row displayed
as excluded (`"[E]"`) into `selected_users`; `action_delete_selected` calls
`admin_delete_user` only on members of `selected_users`, so it never
deletes a user displayed as excluded. -/
theorem excluded_rows_never_deleted (rows : List TableRow) (toggles : List Nat)
    (poolId : Option String) (delOk : String → Bool)
    (hnd : (rows.map TableRow.username).Nodup) :
    (∀ u ∈ (toggles.foldl toggle_selection ⟨rows, []⟩).selected_users,
      ∀ r ∈ (toggles.foldl toggle_selection ⟨rows, []⟩).rows,
        r.select = "[E]" → r.username ≠ u) ∧
    (∀ u ∈ action_delete_selected poolId delOk
        (toggles.foldl toggle_selection ⟨rows, []⟩),
      u ∈ (toggles.foldl toggle_selection ⟨rows, []⟩).selected_users) ∧
    (∀ u ∈ action_delete_selected poolId delOk
        (toggles.foldl toggle_selection ⟨rows, []⟩),
      ∀ r ∈ (toggles.foldl toggle_selection ⟨rows, []⟩).rows,
        r.select = "[E]" → r.username ≠ u) := by
  have hfold := foldl_toggle_invariant toggles ⟨rows, []⟩ hnd (by simp)
  have hsubset : ∀ u ∈ action_delete_selected poolId delOk
      (toggles.foldl toggle_selection ⟨rows, []⟩),
      u ∈ (toggles.foldl toggle_selection ⟨rows, []⟩).selected_users := by
    intro u hu
    rw [action_delete_selected] at hu
    split at hu
    · simp at hu
    · split at hu
      · simp at hu
      · exact deleteCallsList_subset delOk _ u hu
  exact ⟨hfold.2, hsubset, fun u hu => hfold.2 u (hsubset u hu)⟩

/-- Witness for C10 at concrete inputs: a two-row table whose first row is
excluded; toggling both rows selects only `"u2"`, and delete-selected
touches only `"u2"`. -/
theorem excluded_rows_never_deleted_witness :
    (∀ u ∈ ([0, 1].foldl toggle_selection
        ⟨[⟨"[E]", "u1", "u1@x.com"⟩, ⟨"[ ]", "u2", "u2@x.com"⟩], []⟩).selected_users,
      ∀ r ∈ ([0, 1].foldl toggle_selection
        ⟨[⟨"[E]", "u1", "u1@x.com"⟩, ⟨"[ ]", "u2", "u2@x.com"⟩], []⟩).rows,
        r.select = "[E]" → r.username ≠ u) ∧
    (∀ u ∈ action_delete_selected (some "pool") (fun _ => true)
        ([0, 1].foldl toggle_selection
          ⟨[⟨"[E]", "u1", "u1@x.com"⟩, ⟨"[ ]", "u2", "u2@x.com"⟩], []⟩),
      u ∈ ([0, 1].foldl toggle_selection
        ⟨[⟨"[E]", "u1", "u1@x.com"⟩, ⟨"[ ]", "u2", "u2@x.com"⟩], []⟩).selected_users) := by
  have h := excluded_rows_never_deleted
    [⟨"[E]", "u1", "u1@x.com"⟩, ⟨"[ ]", "u2", "u2@x.com"⟩] [0, 1]
    (some "pool") (fun _ => true) (by decide)
  exact ⟨h.1, h.2.1⟩

end Cognito
